import Mathlib

/-!
Verification of `work_with_phone_numbers`: a shallow embedding of the three
Python source files (`utils.py`, `sort_random_phone_numbers.py`,
`generate_random_phone_numbers.py`) together with proofs about the embedded
functions.

Files are modelled as lists of line records (`List String`); the lexicographic
order on `String` models Python's string comparison.  Iterators are modelled as
lists consumed from the front, together with explicit step functions where the
statefulness of an iterator matters.
-/

namespace PhoneNumbers

/-! ### `utils.chunked`

`chunked(iterable, chunk_size)` returns `iter(wrapper, [])` where
`wrapper() = list(islice(iterable, chunk_size))`: it repeatedly takes the next
`chunk_size` elements of the underlying iterator and stops as soon as a batch
comes back empty.  `chunkedStep` is one call of the `wrapper` sentinel-checked
by `iter`: it returns the produced batch (`none` when the sentinel `[]` was hit
and iteration stops) together with the state of the underlying iterator
afterwards (`islice` consumes `min (chunk_size, remaining)` elements).
-/

def chunkedStep (st : List α) (chunkSize : Nat) : Option (List α) × List α :=
  let batch := st.take chunkSize
  if batch.isEmpty then (none, st.drop chunkSize) else (some batch, st.drop chunkSize)

/-- Fuel-driven unfolding of the full iteration of `chunked`; the fuel is a
bound on the number of `wrapper` calls, shown sufficient below. -/
def chunkedAux : Nat → List α → Nat → List (List α)
  | 0, _, _ => []
  | fuel + 1, st, chunkSize =>
    match chunkedStep st chunkSize with
    | (none, _) => []
    | (some batch, rest) => batch :: chunkedAux fuel rest chunkSize

/-- The complete (finite-input) behaviour of `chunked`: the list of all batches
it yields on a finite underlying sequence. -/
def chunked (st : List α) (chunkSize : Nat) : List (List α) :=
  chunkedAux (st.length + 1) st chunkSize

theorem chunkedStep_none_isEmpty {st : List α} {B : Nat} {rest : List α}
    (h : chunkedStep st B = (none, rest)) : st.take B = [] := by
  by_cases he : st.take B = []
  · exact he
  · simp [chunkedStep, List.isEmpty_iff, he] at h

theorem chunkedStep_some {st : List α} {B : Nat} {batch rest : List α}
    (h : chunkedStep st B = (some batch, rest)) :
    batch = st.take B ∧ rest = st.drop B ∧ batch ≠ [] := by
  by_cases he : st.take B = []
  · simp [chunkedStep, List.isEmpty_iff, he] at h
  · simp [chunkedStep, List.isEmpty_iff, he] at h
    exact ⟨h.1.symm, h.2.symm, h.1 ▸ he⟩

/-- Fuel irrelevance: any fuel strictly larger than the input length produces
the same batch list. -/
theorem chunkedAux_fuel_eq {B : Nat} :
    ∀ (fuel fuel' : Nat) (st : List α), st.length < fuel → st.length < fuel' →
      chunkedAux fuel st B = chunkedAux fuel' st B := by
  intro fuel
  induction fuel with
  | zero => intro fuel' st h _; omega
  | succ f ih =>
    intro fuel' st h h'
    cases fuel' with
    | zero => omega
    | succ f' =>
      simp only [chunkedAux]
      cases hs : chunkedStep st B with
      | mk ob rest =>
        cases ob with
        | none => rfl
        | some batch =>
          obtain ⟨hb, hr, hne⟩ := chunkedStep_some hs
          have hBpos : 0 < B := by
            by_contra hB
            have : B = 0 := by omega
            subst this; simp at hb; exact hne hb
          have hstne : st ≠ [] := by
            intro hst; subst hst; simp at hb; exact hne hb
          have hlen : rest.length < st.length := by
            subst hr
            have : 0 < st.length := List.length_pos.mpr hstne
            simp [List.length_drop]; omega
          show batch :: chunkedAux f rest B = batch :: chunkedAux f' rest B
          rw [ih f' rest (by omega) (by omega)]

/-- One-step unfolding of `chunked` on finite inputs. -/
theorem chunked_eq_step (st : List α) (B : Nat) :
    chunked st B =
      match chunkedStep st B with
      | (none, _) => []
      | (some batch, rest) => batch :: chunked rest B := by
  unfold chunked
  simp only [chunkedAux]
  cases hs : chunkedStep st B with
  | mk ob rest =>
    cases ob with
    | none => rfl
    | some batch =>
      obtain ⟨hb, hr, hne⟩ := chunkedStep_some hs
      have hBpos : 0 < B := by
        by_contra hB
        have : B = 0 := by omega
        subst this; simp at hb; exact hne hb
      have hstne : st ≠ [] := by
        intro hst; subst hst; simp at hb; exact hne hb
      have hlen : rest.length < st.length := by
        subst hr
        have : 0 < st.length := List.length_pos.mpr hstne
        simp [List.length_drop]; omega
      show batch :: chunkedAux st.length rest B = batch :: chunked rest B
      rw [chunkedAux_fuel_eq st.length (rest.length + 1) rest (by omega) (by omega)]
      rfl

theorem chunked_nil (B : Nat) : chunked ([] : List α) B = [] := by
  rw [chunked_eq_step]
  simp [chunkedStep]

/-- With batch size `0`, `islice` returns `[]` immediately, which is the stop
sentinel: the step yields nothing and leaves the underlying iterator untouched
(`drop 0`). -/
theorem chunkedStep_zero (l : List α) : chunkedStep l 0 = (none, l) := by
  simp [chunkedStep]

theorem chunked_zero (l : List α) : chunked l 0 = [] := by
  rw [chunked_eq_step, chunkedStep_zero]

theorem chunked_join {B : Nat} (hB : 0 < B) :
    ∀ (n : Nat) (l : List α), l.length ≤ n → (chunked l B).flatten = l := by
  intro n
  induction n with
  | zero =>
    intro l h
    have : l = [] := List.length_eq_zero.mp (by omega)
    subst this; rw [chunked_nil]; rfl
  | succ n ih =>
    intro l h
    rw [chunked_eq_step]
    cases hs : chunkedStep l B with
    | mk ob rest =>
      cases ob with
      | none =>
        have ht := chunkedStep_none_isEmpty hs
        have : l = [] := by
          rcases List.take_eq_nil_iff.mp ht with hB0 | hl
          · omega
          · exact hl
        subst this; rfl
      | some batch =>
        obtain ⟨hb, hr, hne⟩ := chunkedStep_some hs
        subst hb; subst hr
        have hlen : (l.drop B).length ≤ n := by
          simp [List.length_drop]; omega
        simp only [List.flatten_cons]
        rw [ih (l.drop B) hlen, List.take_append_drop]

theorem chunked_batch_bounds {B : Nat} :
    ∀ (n : Nat) (l : List α), l.length ≤ n →
      ∀ b ∈ chunked l B, b.length ≤ B ∧ b ≠ [] := by
  intro n
  induction n with
  | zero =>
    intro l h
    have : l = [] := List.length_eq_zero.mp (by omega)
    subst this; rw [chunked_nil]; simp
  | succ n ih =>
    intro l h b hb
    rw [chunked_eq_step] at hb
    cases hs : chunkedStep l B with
    | mk ob rest =>
      rw [hs] at hb
      cases ob with
      | none => simp at hb
      | some batch =>
        obtain ⟨hbatch, hr, hne⟩ := chunkedStep_some hs
        simp only [List.mem_cons] at hb
        rcases hb with hb | hb
        · subst hb
          exact ⟨hbatch ▸ List.length_take_le B l, hne⟩
        · have hBpos : 0 < B := by
            by_contra hB
            have : B = 0 := by omega
            subst this; simp at hbatch; exact hne hbatch
          have hlen : rest.length ≤ n := by
            subst hr
            have : l ≠ [] := by
              intro hl; subst hl; simp at hbatch; exact hne hbatch
            have : 0 < l.length := List.length_pos.mpr this
            simp [List.length_drop]; omega
          exact ih rest hlen b hb

/-- Every batch except possibly the last has length exactly `B`. -/
theorem chunked_full_batches {B : Nat} :
    ∀ (n : Nat) (l : List α), l.length ≤ n →
      ∀ b ∈ (chunked l B).dropLast, b.length = B := by
  intro n
  induction n with
  | zero =>
    intro l h
    have : l = [] := List.length_eq_zero.mp (by omega)
    subst this; rw [chunked_nil]; simp
  | succ n ih =>
    intro l h b hb
    rw [chunked_eq_step] at hb
    cases hs : chunkedStep l B with
    | mk ob rest =>
      rw [hs] at hb
      cases ob with
      | none => simp at hb
      | some batch =>
        obtain ⟨hbatch, hr, hne⟩ := chunkedStep_some hs
        have hBpos : 0 < B := by
          by_contra hB
          have : B = 0 := by omega
          subst this; simp at hbatch; exact hne hbatch
        change b ∈ (batch :: chunked rest B).dropLast at hb
        cases hrest : chunked rest B with
        | nil => simp [hrest] at hb
        | cons c cs =>
          rw [hrest] at hb
          rw [List.dropLast_cons_of_ne_nil (by simp)] at hb
          simp only [List.mem_cons] at hb
          rcases hb with hb | hb
          · -- the tail is nonempty, so `rest` is nonempty and the batch is full
            subst hb
            have hrental : rest ≠ [] := by
              intro hrnil; subst hrnil; rw [chunked_nil] at hrest; exact (by simp at hrest)
            have : B < l.length ∨ B = l.length ∨ l.length < B := by omega
            have hlenB : B ≤ l.length := by
              by_contra hlt
              have : rest = [] := by
                subst hr; exact List.drop_eq_nil_of_le (by omega)
              exact hrental this
            rw [hbatch]
            exact List.length_take_of_le hlenB
          · have hlen : rest.length ≤ n := by
              subst hr
              have : l ≠ [] := by
                intro hl; subst hl; simp at hbatch; exact hne hbatch
              have : 0 < l.length := List.length_pos.mpr this
              simp [List.length_drop]; omega
            have := ih rest hlen b
            rw [hrest] at this
            exact this hb

/-! ### `sort_random_phone_numbers.split_huge_file_into_sorted_chucks`

The Python function enumerates the input lines starting at `1`, appends each
line to a buffer `lines`, and whenever `i > 0 and i % lines_per_chunk == 0`
sorts the buffer (`lines.sort()`, a stable in-place sort; on strings equal
elements are identical so any `≤`-sort coincides), writes it out as chunk file
`i / lines_per_chunk`, and clears the buffer.  Lines left in the buffer when
the file ends are never written.  The embedding returns the list of chunk
contents, in chunk-index order.
-/

def sortLines (lines : List String) : List String :=
  List.insertionSort (· ≤ ·) lines

def splitLoop (linesPerChunk : Nat) : List String → Nat → List String → List (List String)
  | [], _, _ => []
  | line :: rest, i, acc =>
    let acc' := acc ++ [line]
    if 0 < i ∧ i % linesPerChunk = 0 then
      sortLines acc' :: splitLoop linesPerChunk rest (i + 1) []
    else
      splitLoop linesPerChunk rest (i + 1) acc'

def split_huge_file_into_sorted_chucks (input : List String) (linesPerChunk : Nat) :
    List (List String) :=
  splitLoop linesPerChunk input 1 []

/-- Loop invariant of the splitter: starting at line index `k*C + |acc| + 1`
with a partially filled buffer `acc` (`|acc| < C`), the produced chunks all
have exactly `C` lines, their number is `(|acc| + |rest|) / C`, and together
they hold exactly the first `C * ((|acc| + |rest|) / C)` pending lines (the
trailing remainder is dropped). -/
theorem splitLoop_spec {C : Nat} (hC : 0 < C) :
    ∀ (rest : List String) (k : Nat) (acc : List String), acc.length < C →
      (∀ ch ∈ splitLoop C rest (k * C + acc.length + 1) acc, ch.length = C) ∧
      (splitLoop C rest (k * C + acc.length + 1) acc).length =
        (acc.length + rest.length) / C ∧
      List.Perm (splitLoop C rest (k * C + acc.length + 1) acc).flatten
        ((acc ++ rest).take (C * ((acc.length + rest.length) / C))) := by
  intro rest
  induction rest with
  | nil =>
    intro k acc hacc
    refine ⟨by simp [splitLoop], ?_, ?_⟩
    · simp [splitLoop, Nat.div_eq_of_lt hacc]
    · simp [splitLoop, Nat.div_eq_of_lt hacc]
  | cons line rest ih =>
    intro k acc hacc
    by_cases hfull : acc.length + 1 = C
    · -- the buffer fills up: a chunk is emitted
      have hmod : (k * C + acc.length + 1) % C = 0 := by
        rw [Nat.add_assoc, Nat.add_comm (k * C), Nat.add_mul_mod_self_right, hfull,
          Nat.mod_self]
      have hcond : 0 < k * C + acc.length + 1 ∧ (k * C + acc.length + 1) % C = 0 :=
        ⟨by omega, hmod⟩
      rw [splitLoop, if_pos hcond]
      have hidx : k * C + acc.length + 1 + 1 = (k + 1) * C + ([] : List String).length + 1 := by
        simp [Nat.add_mul, Nat.mul_add]; omega
      obtain ⟨iha, ihb, ihc⟩ := ih (k + 1) [] hC
      rw [hidx]
      have hlenacc' : (acc ++ [line]).length = C := by simp; omega
      have hdiv : (acc.length + (line :: rest).length) / C = rest.length / C + 1 := by
        have : acc.length + (line :: rest).length = rest.length + C := by simp; omega
        rw [this, Nat.add_div_right _ hC]
      constructor
      · intro ch hch
        rcases List.mem_cons.mp hch with h | h
        · subst h
          rw [sortLines, List.length_insertionSort]
          exact hlenacc'
        · exact iha ch h
      constructor
      · simp only [List.length_cons]
        rw [ihb]
        simp only [List.length_nil, Nat.zero_add]
        rw [show acc.length + (rest.length + 1) = rest.length + C by omega,
          Nat.add_div_right _ hC]
      · simp only [List.flatten_cons, List.length_cons]
        rw [show acc.length + (rest.length + 1) = rest.length + C by omega,
          Nat.add_div_right _ hC]
        have hperm : List.Perm (sortLines (acc ++ [line]) ++
            (splitLoop C rest ((k + 1) * C + 0 + 1) []).flatten)
            ((acc ++ [line]) ++ rest.take (C * (rest.length / C))) := by
          refine List.Perm.append ?_ ?_
          · exact List.perm_insertionSort _ _
          · simpa using ihc
        refine hperm.trans ?_
        have harr : acc ++ line :: rest = (acc ++ [line]) ++ rest := by simp
        rw [harr, Nat.mul_add, Nat.mul_one]
        rw [show C * (rest.length / C) + C = C + C * (rest.length / C) by omega]
        rw [← hlenacc', List.take_append]
    · -- the buffer is still short of a full chunk
      have hlt : acc.length + 1 < C := by omega
      have hmod : (k * C + acc.length + 1) % C = acc.length + 1 := by
        rw [Nat.add_assoc, Nat.add_comm (k * C), Nat.add_mul_mod_self_right]
        exact Nat.mod_eq_of_lt hlt
      have hcond : ¬(0 < k * C + acc.length + 1 ∧ (k * C + acc.length + 1) % C = 0) := by
        intro h
        rw [hmod] at h
        omega
      rw [splitLoop, if_neg hcond]
      have hidx : k * C + acc.length + 1 + 1 = k * C + (acc ++ [line]).length + 1 := by
        simp only [List.length_append, List.length_cons, List.length_nil]
        omega
      obtain ⟨iha, ihb, ihc⟩ := ih k (acc ++ [line]) (by simp; omega)
      rw [hidx]
      have harr : acc ++ line :: rest = (acc ++ [line]) ++ rest := by simp
      have htot : (acc ++ [line]).length + rest.length = acc.length + (line :: rest).length := by
        simp; omega
      refine ⟨iha, ?_, ?_⟩
      · rw [ihb, htot]
      · rw [harr, ← htot]
        exact ihc

/-- Top-level instantiation of the splitter invariant at `i = 1`, `acc = []`. -/
theorem split_chucks_spec {C : Nat} (hC : 0 < C) (input : List String) :
    (∀ ch ∈ split_huge_file_into_sorted_chucks input C, ch.length = C) ∧
    (split_huge_file_into_sorted_chucks input C).length = input.length / C ∧
    List.Perm (split_huge_file_into_sorted_chucks input C).flatten
      (input.take (C * (input.length / C))) := by
  have h := splitLoop_spec hC input 0 [] hC
  simpa [split_huge_file_into_sorted_chucks] using h

/-! ### `sort_random_phone_numbers.merge_files`

`merge_files` opens every chunk and writes `heapq.merge(*chunks)` to the output
file.  `heapq.merge` keeps one buffered element per stream, keyed by
`(value, stream index)`, and repeatedly emits the smallest buffered value,
breaking ties by the smaller stream index.  `minStream` computes the selected
`(index, value)` pair over the current stream states (exhausted streams are
kept as empty placeholders so indices stay aligned); `popAt` advances the
selected stream.  `mergeKAux` is fuel-driven, with the total number of buffered
lines as sufficient fuel.
-/

def minStream : List (List String) → Option (Nat × String)
  | [] => none
  | [] :: rest => (minStream rest).map (fun p => (p.1 + 1, p.2))
  | (x :: _) :: rest =>
    match minStream rest with
    | none => some (0, x)
    | some (j, y) => if y < x then some (j + 1, y) else some (0, x)

def popAt : List (List String) → Nat → List (List String)
  | [], _ => []
  | s :: rest, 0 => s.tail :: rest
  | s :: rest, i + 1 => s :: popAt rest i

def totalLen (streams : List (List String)) : Nat := (streams.map List.length).sum

def mergeKAux : Nat → List (List String) → List String
  | 0, _ => []
  | fuel + 1, streams =>
    match minStream streams with
    | none => []
    | some (i, x) => x :: mergeKAux fuel (popAt streams i)

def merge_files (streams : List (List String)) : List String :=
  mergeKAux (totalLen streams + 1) streams

theorem minStream_nil_cons (rest : List (List String)) :
    minStream ([] :: rest) = (minStream rest).map (fun p => (p.1 + 1, p.2)) := rfl

theorem minStream_cons_cons (x : String) (xs : List String) (rest : List (List String)) :
    minStream ((x :: xs) :: rest) =
      match minStream rest with
      | none => some (0, x)
      | some (j, y) => if y < x then some (j + 1, y) else some (0, x) := rfl

theorem minStream_none :
    ∀ {streams : List (List String)}, minStream streams = none →
      ∀ s ∈ streams, s = [] := by
  intro streams
  induction streams with
  | nil => intro _ s hs; simp at hs
  | cons s rest ih =>
    intro h t ht
    cases s with
    | nil =>
      rw [minStream_nil_cons] at h
      cases hm : minStream rest with
      | some p => rw [hm] at h; simp at h
      | none =>
        rcases List.mem_cons.mp ht with rfl | ht
        · rfl
        · exact ih hm t ht
    | cons x xs =>
      rw [minStream_cons_cons] at h
      cases hm : minStream rest with
      | none => rw [hm] at h; simp at h
      | some p =>
        rw [hm] at h
        rcases p with ⟨j, y⟩
        change (if y < x then some (j + 1, y) else some (0, x)) = none at h
        by_cases hy : y < x <;> simp [hy] at h

theorem minStream_some_get :
    ∀ {streams : List (List String)} {i : Nat} {x : String},
      minStream streams = some (i, x) → ∃ t, streams[i]? = some (x :: t) := by
  intro streams
  induction streams with
  | nil => intro i x h; simp [minStream] at h
  | cons s rest ih =>
    intro i x h
    cases s with
    | nil =>
      rw [minStream_nil_cons] at h
      cases hm : minStream rest with
      | none => rw [hm] at h; simp at h
      | some p =>
        rw [hm] at h
        rcases p with ⟨j, y⟩
        simp only [Option.map_some', Option.some.injEq, Prod.mk.injEq] at h
        obtain ⟨hi, hx⟩ := h
        subst hx
        obtain ⟨t, ht⟩ := ih hm
        exact ⟨t, by rw [← hi]; simpa using ht⟩
    | cons x' xs =>
      rw [minStream_cons_cons] at h
      cases hm : minStream rest with
      | none =>
        rw [hm] at h
        simp only [Option.some.injEq, Prod.mk.injEq] at h
        obtain ⟨hi, hx⟩ := h
        subst hx
        exact ⟨xs, by rw [← hi]; simp⟩
      | some p =>
        rw [hm] at h
        rcases p with ⟨j, y⟩
        change (if y < x' then some (j + 1, y) else some (0, x')) = some (i, x) at h
        by_cases hy : y < x'
        · simp only [if_pos hy, Option.some.injEq, Prod.mk.injEq] at h
          obtain ⟨hi, hx⟩ := h
          subst hx
          obtain ⟨t, ht⟩ := ih hm
          exact ⟨t, by rw [← hi]; simpa using ht⟩
        · simp only [if_neg hy, Option.some.injEq, Prod.mk.injEq] at h
          obtain ⟨hi, hx⟩ := h
          subst hx
          exact ⟨xs, by rw [← hi]; simp⟩

/-- The selected pair is minimal among all buffered heads, with ties broken
towards the earlier stream: this is exactly the order of the
`(value, stream index)` keys used by the merge. -/
theorem minStream_min :
    ∀ {streams : List (List String)} {i : Nat} {x : String},
      minStream streams = some (i, x) →
      ∀ j y t, streams[j]? = some (y :: t) → x ≤ y ∧ (y = x → i ≤ j) := by
  intro streams
  induction streams with
  | nil => intro i x h; simp [minStream] at h
  | cons s rest ih =>
    intro i x h j y t hj
    cases s with
    | nil =>
      rw [minStream_nil_cons] at h
      cases hm : minStream rest with
      | none => rw [hm] at h; simp at h
      | some p =>
        rw [hm] at h
        rcases p with ⟨j', y'⟩
        simp only [Option.map_some', Option.some.injEq, Prod.mk.injEq] at h
        obtain ⟨hi, hx⟩ := h
        subst hx
        cases j with
        | zero => simp at hj
        | succ j0 =>
          rw [List.getElem?_cons_succ] at hj
          obtain ⟨hle, htie⟩ := ih hm j0 y t hj
          exact ⟨hle, fun hyx => by rw [← hi]; exact Nat.succ_le_succ (htie hyx)⟩
    | cons x' xs =>
      rw [minStream_cons_cons] at h
      cases hm : minStream rest with
      | none =>
        rw [hm] at h
        simp only [Option.some.injEq, Prod.mk.injEq] at h
        obtain ⟨hi, hx⟩ := h
        subst hx
        cases j with
        | zero =>
          simp only [List.getElem?_cons_zero, Option.some.injEq, List.cons.injEq] at hj
          exact ⟨le_of_eq hj.1, fun _ => by omega⟩
        | succ j0 =>
          rw [List.getElem?_cons_succ] at hj
          have hall := minStream_none hm
          have : y :: t ∈ rest := by
            have := List.getElem?_mem hj
            exact this
          have := hall _ this
          simp at this
      | some p =>
        rw [hm] at h
        rcases p with ⟨j', y'⟩
        change (if y' < x' then some (j' + 1, y') else some (0, x')) = some (i, x) at h
        by_cases hy : y' < x'
        · simp only [if_pos hy, Option.some.injEq, Prod.mk.injEq] at h
          obtain ⟨hi, hx⟩ := h
          subst hx
          cases j with
          | zero =>
            simp only [List.getElem?_cons_zero, Option.some.injEq, List.cons.injEq] at hj
            refine ⟨hj.1 ▸ le_of_lt hy, fun hyx => ?_⟩
            rw [← hyx, ← hj.1] at hy
            exact absurd hy (lt_irrefl _)
          | succ j0 =>
            rw [List.getElem?_cons_succ] at hj
            obtain ⟨hle, htie⟩ := ih hm j0 y t hj
            exact ⟨hle, fun hyx => by rw [← hi]; exact Nat.succ_le_succ (htie hyx)⟩
        · simp only [if_neg hy, Option.some.injEq, Prod.mk.injEq] at h
          obtain ⟨hi, hx⟩ := h
          subst hx
          have hxle : x' ≤ y' := le_of_not_lt hy
          cases j with
          | zero =>
            simp only [List.getElem?_cons_zero, Option.some.injEq, List.cons.injEq] at hj
            exact ⟨le_of_eq hj.1, fun _ => by omega⟩
          | succ j0 =>
            rw [List.getElem?_cons_succ] at hj
            obtain ⟨hle, _⟩ := ih hm j0 y t hj
            exact ⟨le_trans hxle hle, fun _ => by rw [← hi]; omega⟩

theorem popAt_totalLen :
    ∀ {streams : List (List String)} {i : Nat} {x : String} {t : List String},
      streams[i]? = some (x :: t) → totalLen (popAt streams i) + 1 = totalLen streams := by
  intro streams
  induction streams with
  | nil => intro i x t h; simp at h
  | cons s rest ih =>
    intro i x t h
    cases i with
    | zero =>
      simp only [List.getElem?_cons_zero, Option.some.injEq] at h
      subst h
      simp only [popAt, totalLen, List.map_cons, List.sum_cons, List.tail_cons,
        List.length_cons]
      omega
    | succ i0 =>
      rw [List.getElem?_cons_succ] at h
      have := ih h
      simp only [popAt, totalLen, List.map_cons, List.sum_cons] at this ⊢
      omega

theorem popAt_flatten_perm :
    ∀ {streams : List (List String)} {i : Nat} {x : String} {t : List String},
      streams[i]? = some (x :: t) →
      List.Perm streams.flatten (x :: (popAt streams i).flatten) := by
  intro streams
  induction streams with
  | nil => intro i x t h; simp at h
  | cons s rest ih =>
    intro i x t h
    cases i with
    | zero =>
      simp only [List.getElem?_cons_zero, Option.some.injEq] at h
      subst h
      simp only [popAt, List.flatten_cons, List.tail_cons, List.cons_append]
      exact List.Perm.refl _
    | succ i0 =>
      rw [List.getElem?_cons_succ] at h
      simp only [popAt, List.flatten_cons]
      exact (List.Perm.append_left s (ih h)).trans List.perm_middle

theorem popAt_sorted :
    ∀ {streams : List (List String)},
      (∀ s ∈ streams, List.Sorted (· ≤ ·) s) →
      ∀ (i : Nat), ∀ s ∈ popAt streams i, List.Sorted (· ≤ ·) s := by
  intro streams
  induction streams with
  | nil => intro _ i s hs; simp [popAt] at hs
  | cons s0 rest ih =>
    intro h i s hs
    cases i with
    | zero =>
      simp only [popAt, List.mem_cons] at hs
      rcases hs with rfl | hs
      · cases s0 with
        | nil => exact List.sorted_nil
        | cons a as =>
          have := h (a :: as) (List.mem_cons_self _ _)
          exact (List.sorted_cons.mp this).2
      · exact h s (List.mem_cons_of_mem _ hs)
    | succ i0 =>
      simp only [popAt, List.mem_cons] at hs
      rcases hs with rfl | hs
      · exact h s (List.mem_cons_self _ _)
      · exact ih (fun u hu => h u (List.mem_cons_of_mem _ hu)) i0 s hs

theorem mergeKAux_fuel_eq :
    ∀ (fuel fuel' : Nat) (streams : List (List String)),
      totalLen streams < fuel → totalLen streams < fuel' →
      mergeKAux fuel streams = mergeKAux fuel' streams := by
  intro fuel
  induction fuel with
  | zero => intro fuel' streams h _; omega
  | succ f ih =>
    intro fuel' streams h h'
    cases fuel' with
    | zero => omega
    | succ f' =>
      simp only [mergeKAux]
      cases hm : minStream streams with
      | none => rfl
      | some p =>
        rcases p with ⟨i, x⟩
        obtain ⟨t, ht⟩ := minStream_some_get hm
        have hlen := popAt_totalLen ht
        show x :: mergeKAux f (popAt streams i) = x :: mergeKAux f' (popAt streams i)
        rw [ih f' _ (by omega) (by omega)]

/-- One-step unfolding of the merge: emit the minimal buffered line, advance
its stream, and continue. -/
theorem merge_files_eq_step (streams : List (List String)) :
    merge_files streams =
      match minStream streams with
      | none => []
      | some (i, x) => x :: merge_files (popAt streams i) := by
  unfold merge_files
  simp only [mergeKAux]
  cases hm : minStream streams with
  | none => rfl
  | some p =>
    rcases p with ⟨i, x⟩
    obtain ⟨t, ht⟩ := minStream_some_get hm
    have hlen := popAt_totalLen ht
    show x :: mergeKAux (totalLen streams) (popAt streams i) =
      x :: mergeKAux (totalLen (popAt streams i) + 1) (popAt streams i)
    rw [mergeKAux_fuel_eq (totalLen streams) (totalLen (popAt streams i) + 1) _
      (by omega) (by omega)]

theorem merge_files_perm :
    ∀ (n : Nat) (streams : List (List String)), totalLen streams ≤ n →
      List.Perm (merge_files streams) streams.flatten := by
  intro n
  induction n with
  | zero =>
    intro streams h
    rw [merge_files_eq_step]
    cases hm : minStream streams with
    | none =>
      have hall := minStream_none hm
      have : streams.flatten = [] := by
        rw [List.flatten_eq_nil_iff]
        exact hall
      rw [this]
    | some p =>
      rcases p with ⟨i, x⟩
      obtain ⟨t, ht⟩ := minStream_some_get hm
      have := popAt_totalLen ht
      omega
  | succ n ih =>
    intro streams h
    rw [merge_files_eq_step]
    cases hm : minStream streams with
    | none =>
      have hall := minStream_none hm
      have : streams.flatten = [] := by
        rw [List.flatten_eq_nil_iff]
        exact hall
      rw [this]
    | some p =>
      rcases p with ⟨i, x⟩
      obtain ⟨t, ht⟩ := minStream_some_get hm
      have hlen := popAt_totalLen ht
      have hrec := ih (popAt streams i) (by omega)
      exact (hrec.cons x).trans (popAt_flatten_perm ht).symm

/-- The emitted minimum is a lower bound for every line still buffered in any
stream, provided all streams are individually sorted. -/
theorem minStream_le_flatten {streams : List (List String)} {i : Nat} {x : String}
    (hm : minStream streams = some (i, x))
    (hs : ∀ s ∈ streams, List.Sorted (· ≤ ·) s) :
    ∀ y ∈ streams.flatten, x ≤ y := by
  intro y hy
  rw [List.mem_flatten] at hy
  obtain ⟨s, hsmem, hys⟩ := hy
  obtain ⟨j, hj⟩ := List.mem_iff_getElem?.mp hsmem
  cases s with
  | nil => simp at hys
  | cons h0 t =>
    have hle := (minStream_min hm j h0 t hj).1
    rcases List.mem_cons.mp hys with rfl | hyt
    · exact hle
    · exact le_trans hle (List.rel_of_sorted_cons (hs _ hsmem) y hyt)

theorem merge_files_sorted :
    ∀ (n : Nat) (streams : List (List String)), totalLen streams ≤ n →
      (∀ s ∈ streams, List.Sorted (· ≤ ·) s) →
      List.Sorted (· ≤ ·) (merge_files streams) := by
  intro n
  induction n with
  | zero =>
    intro streams h hs
    rw [merge_files_eq_step]
    cases hm : minStream streams with
    | none => exact List.sorted_nil
    | some p =>
      rcases p with ⟨i, x⟩
      obtain ⟨t, ht⟩ := minStream_some_get hm
      have := popAt_totalLen ht
      omega
  | succ n ih =>
    intro streams h hs
    rw [merge_files_eq_step]
    cases hm : minStream streams with
    | none => exact List.sorted_nil
    | some p =>
      rcases p with ⟨i, x⟩
      obtain ⟨t, ht⟩ := minStream_some_get hm
      have hlen := popAt_totalLen ht
      rw [List.sorted_cons]
      constructor
      · intro b hb
        have hperm := merge_files_perm n (popAt streams i) (by omega)
        have hbfl : b ∈ (popAt streams i).flatten := hperm.mem_iff.mp hb
        have : b ∈ streams.flatten := (popAt_flatten_perm ht).symm.mem_iff.mp
          (List.mem_cons_of_mem x hbfl)
        exact minStream_le_flatten hm hs b this
      · exact ih (popAt streams i) (by omega) (popAt_sorted hs i)

/-! ### `generate_random_phone_numbers.generate_temp_files_with_numbers`

The generator opens one sink per name in `raw_files_name` (all initially
empty), iterates `number` over `range(start_number, stop_number)` and appends
the record `f"+{number}\n"` to sink `number % split_file_number`.  The
embedding keeps the list of sink contents; `formatRecord` is the record payload
(one line).
-/

def formatRecord (n : Nat) : String := "+" ++ toString n

def appendAt : List (List String) → Nat → String → List (List String)
  | [], _, _ => []
  | f :: fs, 0, r => (f ++ [r]) :: fs
  | f :: fs, k + 1, r => f :: appendAt fs k r

def genLoop (splitFileNumber : Nat) : List Nat → List (List String) → List (List String)
  | [], files => files
  | n :: ns, files =>
    genLoop splitFileNumber ns (appendAt files (n % splitFileNumber) (formatRecord n))

def generate_temp_files_with_numbers (startNumber stopNumber splitFileNumber : Nat) :
    List (List String) :=
  genLoop splitFileNumber (List.range' startNumber (stopNumber - startNumber))
    (List.replicate splitFileNumber [])

theorem appendAt_length :
    ∀ (files : List (List String)) (k : Nat) (r : String),
      (appendAt files k r).length = files.length := by
  intro files
  induction files with
  | nil => intro k r; rfl
  | cons f fs ih =>
    intro k r
    cases k with
    | zero => rfl
    | succ k0 => simp [appendAt, ih]

theorem appendAt_flatten_perm :
    ∀ (files : List (List String)) (k : Nat) (r : String), k < files.length →
      List.Perm (appendAt files k r).flatten (files.flatten ++ [r]) := by
  intro files
  induction files with
  | nil => intro k r hk; simp at hk
  | cons f fs ih =>
    intro k r hk
    cases k with
    | zero =>
      simp only [appendAt, List.flatten_cons, List.append_assoc]
      exact List.Perm.append_left f (List.perm_append_comm)
    | succ k0 =>
      simp only [appendAt, List.flatten_cons, List.append_assoc]
      exact List.Perm.append_left f (ih k0 r (by simpa using hk))

theorem genLoop_flatten_perm {N : Nat} (hN : 0 < N) :
    ∀ (ns : List Nat) (files : List (List String)), files.length = N →
      List.Perm (genLoop N ns files).flatten (files.flatten ++ ns.map formatRecord) := by
  intro ns
  induction ns with
  | nil => intro files hlen; simp [genLoop]
  | cons n ns ih =>
    intro files hlen
    simp only [genLoop, List.map_cons]
    have hk : n % N < files.length := by
      rw [hlen]; exact Nat.mod_lt _ hN
    have h1 := ih (appendAt files (n % N) (formatRecord n))
      (by rw [appendAt_length, hlen])
    refine h1.trans ?_
    have h2 := List.Perm.append_right (ns.map formatRecord)
      (appendAt_flatten_perm files (n % N) (formatRecord n) hk)
    refine h2.trans ?_
    simp [List.append_assoc]

theorem genLoop_length {N : Nat} :
    ∀ (ns : List Nat) (files : List (List String)),
      (genLoop N ns files).length = files.length := by
  intro ns
  induction ns with
  | nil => intro files; rfl
  | cons n ns ih =>
    intro files
    simp only [genLoop]
    rw [ih, appendAt_length]

/-! Injectivity of the decimal formatter `Nat.repr` (hence of `formatRecord`),
needed to show that no record is duplicated. -/

theorem toDigitsCore_append :
    ∀ (fuel n : Nat) (ds : List Char),
      Nat.toDigitsCore 10 fuel n ds = Nat.toDigitsCore 10 fuel n [] ++ ds := by
  intro fuel
  induction fuel with
  | zero => intro n ds; rfl
  | succ f ih =>
    intro n ds
    simp only [Nat.toDigitsCore]
    by_cases h : n / 10 = 0
    · simp [h]
    · rw [if_neg h, if_neg h, ih (n / 10) (Nat.digitChar (n % 10) :: ds),
        ih (n / 10) [Nat.digitChar (n % 10)]]
      simp

theorem toDigitsCore_fuel_eq :
    ∀ (fuel fuel' n : Nat), 0 < fuel → 0 < fuel' → n < 10 ^ fuel → n < 10 ^ fuel' →
      Nat.toDigitsCore 10 fuel n [] = Nat.toDigitsCore 10 fuel' n [] := by
  intro fuel
  induction fuel with
  | zero => intro fuel' n h; omega
  | succ f ih =>
    intro fuel' n _ hf' hn hn'
    cases fuel' with
    | zero => omega
    | succ f' =>
      simp only [Nat.toDigitsCore]
      by_cases h : n / 10 = 0
      · simp [h]
      · rw [if_neg h, if_neg h]
        have hge : 10 ≤ n := by
          by_contra hlt
          exact h (Nat.div_eq_of_lt (by omega))
        have hfpos : 0 < f := by
          by_contra hf0
          have : f = 0 := by omega
          subst this
          simp at hn
          omega
        have hf'pos : 0 < f' := by
          by_contra hf0
          have : f' = 0 := by omega
          subst this
          simp at hn'
          omega
        have hb : n / 10 < 10 ^ f := by
          rw [Nat.div_lt_iff_lt_mul (by omega)]
          calc n < 10 ^ (f + 1) := hn
            _ = 10 ^ f * 10 := by rw [pow_succ]
        have hb' : n / 10 < 10 ^ f' := by
          rw [Nat.div_lt_iff_lt_mul (by omega)]
          calc n < 10 ^ (f' + 1) := hn'
            _ = 10 ^ f' * 10 := by rw [pow_succ]
        rw [toDigitsCore_append f (n / 10) [Nat.digitChar (n % 10)],
          toDigitsCore_append f' (n / 10) [Nat.digitChar (n % 10)]]
        rw [ih f' (n / 10) hfpos hf'pos hb hb']

theorem toDigits_lt_ten {n : Nat} (h : n < 10) :
    Nat.toDigits 10 n = [Nat.digitChar n] := by
  show Nat.toDigitsCore 10 (n + 1) n [] = [Nat.digitChar n]
  simp only [Nat.toDigitsCore]
  rw [if_pos (Nat.div_eq_of_lt h), Nat.mod_eq_of_lt h]

theorem self_lt_ten_pow (x : Nat) : x < 10 ^ (x + 1) := by
  calc x < 10 ^ x := Nat.lt_pow_self (by omega) x
    _ ≤ 10 ^ (x + 1) := Nat.pow_le_pow_right (by omega) (by omega)

theorem toDigits_ge_ten {n : Nat} (h : 10 ≤ n) :
    Nat.toDigits 10 n = Nat.toDigits 10 (n / 10) ++ [Nat.digitChar (n % 10)] := by
  show Nat.toDigitsCore 10 (n + 1) n [] =
    Nat.toDigitsCore 10 (n / 10 + 1) (n / 10) [] ++ [Nat.digitChar (n % 10)]
  simp only [Nat.toDigitsCore]
  have hndiv : n / 10 ≠ 0 := by
    intro h0
    have := Nat.div_eq_of_lt (show n < 10 by omega)
    omega
  rw [if_neg hndiv]
  rw [toDigitsCore_append n (n / 10) [Nat.digitChar (n % 10)]]
  congr 1
  exact toDigitsCore_fuel_eq n (n / 10 + 1) (n / 10) (by omega) (by omega)
    (by calc n / 10 < n := Nat.div_lt_self (by omega) (by omega)
      _ < 10 ^ n := Nat.lt_pow_self (by omega) n)
    (self_lt_ten_pow (n / 10))

theorem toDigits_ne_nil (n : Nat) : Nat.toDigits 10 n ≠ [] := by
  by_cases h : n < 10
  · rw [toDigits_lt_ten h]; simp
  · rw [toDigits_ge_ten (by omega)]; simp

theorem digitChar_inj_lt :
    ∀ a, a < 10 → ∀ b, b < 10 → Nat.digitChar a = Nat.digitChar b → a = b := by
  decide

theorem toDigits_inj :
    ∀ (n m : Nat), Nat.toDigits 10 n = Nat.toDigits 10 m → n = m := by
  intro n
  induction n using Nat.strong_induction_on with
  | _ n ih =>
    intro m h
    by_cases hn : n < 10
    · by_cases hm : m < 10
      · rw [toDigits_lt_ten hn, toDigits_lt_ten hm] at h
        simp only [List.cons.injEq, and_true] at h
        exact digitChar_inj_lt n hn m hm h
      · exfalso
        rw [toDigits_lt_ten hn, toDigits_ge_ten (show 10 ≤ m by omega)] at h
        have hlen := congrArg List.length h
        have hpos : 0 < (Nat.toDigits 10 (m / 10)).length :=
          List.length_pos.mpr (toDigits_ne_nil _)
        simp only [List.length_cons, List.length_append, List.length_nil] at hlen
        omega
    · by_cases hm : m < 10
      · exfalso
        rw [toDigits_ge_ten (show 10 ≤ n by omega), toDigits_lt_ten hm] at h
        have hlen := congrArg List.length h
        have hpos : 0 < (Nat.toDigits 10 (n / 10)).length :=
          List.length_pos.mpr (toDigits_ne_nil _)
        simp only [List.length_cons, List.length_append, List.length_nil] at hlen
        omega
      · rw [toDigits_ge_ten (show 10 ≤ n by omega),
          toDigits_ge_ten (show 10 ≤ m by omega)] at h
        have hsp := List.append_inj' h (by simp)
        obtain ⟨hdiv, hmod⟩ := hsp
        have hdiveq : n / 10 = m / 10 :=
          ih (n / 10) (Nat.div_lt_self (by omega) (by omega)) (m / 10) hdiv
        have hmodeq : n % 10 = m % 10 := by
          simp only [List.cons.injEq, and_true] at hmod
          exact digitChar_inj_lt _ (Nat.mod_lt _ (by omega)) _ (Nat.mod_lt _ (by omega)) hmod
        omega

theorem repr_inj {n m : Nat} (h : Nat.repr n = Nat.repr m) : n = m := by
  apply toDigits_inj
  exact congrArg String.data h

theorem formatRecord_inj : Function.Injective formatRecord := by
  intro n m h
  have hdata := congrArg String.data h
  rw [formatRecord, formatRecord, String.data_append, String.data_append] at hdata
  have hlist : (toString n).data = (toString m).data := by
    simpa using hdata
  exact toDigits_inj n m hlist

/-- The generator's output: across all `N` sinks, the records are, up to
partitioning, exactly one `+<decimal>` record per integer of the range, with
no duplicates. -/
theorem generate_spec {start stop N : Nat} (hN : 0 < N) :
    (generate_temp_files_with_numbers start stop N).length = N ∧
    List.Perm (generate_temp_files_with_numbers start stop N).flatten
      ((List.range' start (stop - start)).map formatRecord) ∧
    ((List.range' start (stop - start)).map formatRecord).Nodup := by
  refine ⟨?_, ?_, ?_⟩
  · rw [generate_temp_files_with_numbers, genLoop_length, List.length_replicate]
  · have h := genLoop_flatten_perm hN (List.range' start (stop - start))
      (List.replicate N []) (List.length_replicate N [])
    rw [generate_temp_files_with_numbers]
    refine h.trans ?_
    rw [List.flatten_replicate_nil]
    simp
  · exact (List.nodup_range' _ _).map formatRecord_inj

/-! ### `generate_random_phone_numbers.shuffle_one_file`

`shuffle_one_file` reads all lines of a partition, calls `random.shuffle` on
the list, and writes the (same) lines to a new file.  `random.shuffle` is a
Fisher–Yates loop: `for i in reversed(range(1, len(x))): j = randbelow(i+1);
x[i], x[j] = x[j], x[i]`.  The random draws are modelled by an arbitrary
function `rand`, reduced mod `i+1` so the drawn index is in `randbelow`'s
range `[0, i]`; every sequence of draws the generator can produce is some
`rand`. -/

def listSwap (l : List α) (i j : Nat) : List α :=
  match l[i]?, l[j]? with
  | some a, some b => (l.set i b).set j a
  | _, _ => l

def fyAux (rand : Nat → Nat) : Nat → List String → List String
  | 0, l => l
  | i + 1, l => fyAux rand i (listSwap l (i + 1) (rand (i + 1) % (i + 2)))

def shuffle_one_file (content : List String) (rand : Nat → Nat) : List String :=
  fyAux rand (content.length - 1) content

theorem set_perm_cons :
    ∀ (xs : List α) (k : Nat) (a b : α), xs[k]? = some b →
      List.Perm (b :: xs.set k a) (a :: xs) := by
  intro xs
  induction xs with
  | nil => intro k a b h; simp at h
  | cons y t ih =>
    intro k a b h
    cases k with
    | zero =>
      simp only [List.getElem?_cons_zero, Option.some.injEq] at h
      subst h
      simp only [List.set_cons_zero]
      exact List.Perm.swap a y t
    | succ k0 =>
      rw [List.getElem?_cons_succ] at h
      simp only [List.set_cons_succ]
      have h1 : List.Perm (b :: y :: t.set k0 a) (y :: b :: t.set k0 a) :=
        List.Perm.swap y b _
      have h2 : List.Perm (y :: b :: t.set k0 a) (y :: a :: t) :=
        (ih k0 a b h).cons y
      have h3 : List.Perm (y :: a :: t) (a :: y :: t) := List.Perm.swap a y t
      exact (h1.trans h2).trans h3

theorem set_set_perm :
    ∀ (l : List α) (i j : Nat) (a b : α), l[i]? = some a → l[j]? = some b →
      List.Perm ((l.set i b).set j a) l := by
  intro l
  induction l with
  | nil => intro i j a b hi _; simp at hi
  | cons x xs ih =>
    intro i j a b hi hj
    cases i with
    | zero =>
      simp only [List.getElem?_cons_zero, Option.some.injEq] at hi
      subst hi
      cases j with
      | zero =>
        simp only [List.getElem?_cons_zero, Option.some.injEq] at hj
        simp [List.set_cons_zero]
      | succ j0 =>
        rw [List.getElem?_cons_succ] at hj
        simp only [List.set_cons_zero, List.set_cons_succ]
        exact set_perm_cons xs j0 x b hj
    | succ i0 =>
      rw [List.getElem?_cons_succ] at hi
      cases j with
      | zero =>
        simp only [List.getElem?_cons_zero, Option.some.injEq] at hj
        subst hj
        simp only [List.set_cons_succ, List.set_cons_zero]
        exact set_perm_cons xs i0 x a hi
      | succ j0 =>
        rw [List.getElem?_cons_succ] at hj
        simp only [List.set_cons_succ]
        exact (ih i0 j0 a b hi hj).cons x

theorem listSwap_perm (l : List α) (i j : Nat) : List.Perm (listSwap l i j) l := by
  unfold listSwap
  cases hi : l[i]? with
  | none => exact List.Perm.refl l
  | some a =>
    cases hj : l[j]? with
    | none => exact List.Perm.refl l
    | some b =>
      show List.Perm ((l.set i b).set j a) l
      exact set_set_perm l i j a b hi hj

theorem fyAux_perm (rand : Nat → Nat) :
    ∀ (i : Nat) (l : List String), List.Perm (fyAux rand i l) l := by
  intro i
  induction i with
  | zero => intro l; exact List.Perm.refl l
  | succ i0 ih =>
    intro l
    exact (ih _).trans (listSwap_perm _ _ _)

/-! ### I/O trace of the generator (configuration handling)

The generator performs no configuration validation.  `generateTrace` records
its I/O actions in order, together with the error it eventually raises, if
any: it opens every sink first; then, on each loop iteration, `number %
split_file_number` raises `ZeroDivisionError` when the partition count is
zero, otherwise a record is written; `range(start, stop)` is simply empty when
`start >= stop`, so the run finishes normally having opened (and closed) all
sinks. -/

inductive FileEvent
  | openWrite (name : String)
  | write (name : String) (data : String)
  | close (name : String)

def genTraceLoop (splitFileNumber : Nat) (fileNames : List String) :
    List Nat → List FileEvent → List FileEvent × Option String
  | [], evs => (evs ++ fileNames.map FileEvent.close, none)
  | n :: ns, evs =>
    if splitFileNumber = 0 then (evs, some "ZeroDivisionError")
    else
      genTraceLoop splitFileNumber fileNames ns
        (evs ++ [FileEvent.write (fileNames.getD (n % splitFileNumber) "")
          (formatRecord n)])

def generateTrace (startNumber stopNumber splitFileNumber : Nat)
    (fileNames : List String) : List FileEvent × Option String :=
  genTraceLoop splitFileNumber fileNames
    (List.range' startNumber (stopNumber - startNumber))
    (fileNames.map FileEvent.openWrite)

/-! ### The whole sort pipeline -/

def externalSort (input : List String) (linesPerChunk : Nat) : List String :=
  merge_files (split_huge_file_into_sorted_chucks input linesPerChunk)

/-! ## Claim theorems -/

/-- Claim C1: the claim states that splitting followed by merging equals a
one-pass in-memory sort for inputs both smaller and larger than one chunk.
This fails for an input smaller than one chunk: the splitter only writes a
chunk when the running line index is a multiple of `lines_per_chunk`, so a
single line with chunk size 2 produces no chunk at all and the pipeline
returns the empty file instead of the sorted input. -/
theorem c1_pipeline_differs_from_in_memory_sort :
    externalSort ["+79000000000"] 2 = [] ∧
    sortLines ["+79000000000"] = ["+79000000000"] ∧
    externalSort ["+79000000000"] 2 ≠ sortLines ["+79000000000"] := by
  refine ⟨rfl, rfl, ?_⟩
  decide

/-- Claim C2: the claim states that the final partial batch is written as its
own chunk, and in particular that a non-empty source shorter than the chunk
size yields exactly one chunk.  The code never flushes the trailing buffer: a
one-line file with chunk size 2 yields zero chunks. -/
theorem c2_partial_batch_is_dropped :
    split_huge_file_into_sorted_chucks ["+79000000001"] 2 = [] ∧
    (split_huge_file_into_sorted_chucks ["+79000000001"] 2).length ≠ 1 := by
  refine ⟨rfl, ?_⟩
  decide

/-- Claim C3: across all `N` partition sinks, the generator writes exactly the
records `+<integer>` for the integers of `[start, stop)`, each exactly once:
the flattened sink contents are a permutation of the formatted range, and the
formatted range has no duplicates. -/
theorem c3_generator_covers_range_exactly_once {start stop N : Nat}
    (hN : 0 < N) (_hrange : start < stop) :
    (generate_temp_files_with_numbers start stop N).length = N ∧
    List.Perm (generate_temp_files_with_numbers start stop N).flatten
      ((List.range' start (stop - start)).map formatRecord) ∧
    ((List.range' start (stop - start)).map formatRecord).Nodup :=
  generate_spec hN

theorem c3_generator_covers_range_exactly_once_witness :
    0 < 3 ∧ 3 < 7 ∧
    ((generate_temp_files_with_numbers 3 7 3).length = 3 ∧
      List.Perm (generate_temp_files_with_numbers 3 7 3).flatten
        ((List.range' 3 (7 - 3)).map formatRecord) ∧
      ((List.range' 3 (7 - 3)).map formatRecord).Nodup) :=
  ⟨by decide, by decide,
    c3_generator_covers_range_exactly_once (by decide) (by decide)⟩

/-- Claim C4: on streams that are each sorted ascending, `merge_files`
produces a sorted permutation of all the input lines, and each emission picks
the smallest buffered head, breaking ties towards the earlier-indexed chunk
(the recursion `merge_files_eq_step` repeats exactly this selection). -/
theorem c4_merge_is_sorted_stable_merge (streams : List (List String))
    (hs : ∀ s ∈ streams, List.Sorted (· ≤ ·) s) :
    List.Sorted (· ≤ ·) (merge_files streams) ∧
    List.Perm (merge_files streams) streams.flatten ∧
    (∀ i x, minStream streams = some (i, x) →
      ∀ j y t, streams[j]? = some (y :: t) → x ≤ y ∧ (y = x → i ≤ j)) := by
  refine ⟨merge_files_sorted (totalLen streams) streams le_rfl hs,
    merge_files_perm (totalLen streams) streams le_rfl, ?_⟩
  intro i x hm j y t hj
  exact minStream_min hm j y t hj

theorem c4_merge_is_sorted_stable_merge_witness :
    (∀ s ∈ [["a", "c"], ["b"], ["a"]], List.Sorted (· ≤ ·) s) ∧
    (List.Sorted (· ≤ ·) (merge_files [["a", "c"], ["b"], ["a"]]) ∧
      List.Perm (merge_files [["a", "c"], ["b"], ["a"]])
        [["a", "c"], ["b"], ["a"]].flatten ∧
      (∀ i x, minStream [["a", "c"], ["b"], ["a"]] = some (i, x) →
        ∀ j y t, [["a", "c"], ["b"], ["a"]][j]? = some (y :: t) →
          x ≤ y ∧ (y = x → i ≤ j))) := by
  have hs : ∀ s ∈ [["a", "c"], ["b"], ["a"]], List.Sorted (· ≤ ·) s := by
    intro s hmem
    simp only [List.mem_cons, List.not_mem_nil, or_false] at hmem
    rcases hmem with rfl | rfl | rfl
    · simp only [List.sorted_cons, List.mem_singleton, List.sorted_singleton,
        and_true, forall_eq]
      rw [String.le_iff_toList_le]
      decide
    · exact List.sorted_singleton _
    · exact List.sorted_singleton _
  exact ⟨hs, c4_merge_is_sorted_stable_merge _ hs⟩

/-- Claim C5: whatever values the random source yields, the Fisher–Yates loop
of `shuffle_one_file` only swaps positions, so the written lines are a
permutation of the lines read; an empty partition is shuffled to an empty
output without error. -/
theorem c5_shuffle_writes_permutation (content : List String) (rand : Nat → Nat) :
    List.Perm (shuffle_one_file content rand) content ∧
    shuffle_one_file [] rand = [] :=
  ⟨fyAux_perm rand _ content, rfl⟩

/-- Claim C6: the claim states that re-sorting an already-sorted file
reproduces it byte-for-byte.  It fails whenever the line count is not a
multiple of the chunk size: a sorted one-line file with chunk size 2 comes out
empty. -/
theorem c6_resort_of_sorted_file_not_identity :
    List.Sorted (· ≤ ·) ["+79000000002"] ∧
    externalSort ["+79000000002"] 2 = [] ∧
    externalSort ["+79000000002"] 2 ≠ ["+79000000002"] := by
  refine ⟨by simp, rfl, ?_⟩
  decide

/-- Claim C7: the claim states that invalid configurations are rejected before
any I/O.  The generator validates nothing: with `start >= stop` (an invalid
range) and one partition it still opens its sink — an I/O action — and then
finishes without any error. -/
theorem c7_invalid_config_not_rejected_before_io :
    generateTrace 5 3 1 ["file_1.txt"] =
      ([FileEvent.openWrite "file_1.txt", FileEvent.close "file_1.txt"], none) := rfl

/-- Claim C8: for a positive batch size, `chunked` yields non-empty batches of
length at most `B` whose concatenation is the input in order, every batch
except possibly the last being full; once the underlying iterator is
exhausted, a further step yields no batch. -/
theorem c8_chunked_batches_faithfully (l : List String) (B : Nat) (hB : 0 < B) :
    (∀ b ∈ chunked l B, b.length ≤ B ∧ b ≠ []) ∧
    (chunked l B).flatten = l ∧
    (∀ b ∈ (chunked l B).dropLast, b.length = B) ∧
    chunkedStep ([] : List String) B = (none, []) := by
  refine ⟨chunked_batch_bounds l.length l le_rfl, chunked_join hB l.length l le_rfl,
    chunked_full_batches l.length l le_rfl, ?_⟩
  simp [chunkedStep]

theorem c8_chunked_batches_faithfully_witness :
    0 < 2 ∧
    ((∀ b ∈ chunked ["b", "a", "c"] 2, b.length ≤ 2 ∧ b ≠ []) ∧
      (chunked ["b", "a", "c"] 2).flatten = ["b", "a", "c"] ∧
      (∀ b ∈ (chunked ["b", "a", "c"] 2).dropLast, b.length = 2) ∧
      chunkedStep ([] : List String) 2 = (none, [])) :=
  ⟨by decide, c8_chunked_batches_faithfully ["b", "a", "c"] 2 (by decide)⟩

/-- Claim C9: every chunk the splitter creates holds exactly `C` lines, the
number of chunks is `⌊total / C⌋`, and the chunks together hold exactly the
first `C * ⌊total / C⌋` input lines — the trailing remainder is written to no
chunk. -/
theorem c9_chunks_full_and_tail_unwritten (input : List String) (C : Nat)
    (hC : 0 < C) :
    (∀ ch ∈ split_huge_file_into_sorted_chucks input C, ch.length = C) ∧
    (split_huge_file_into_sorted_chucks input C).length = input.length / C ∧
    List.Perm (split_huge_file_into_sorted_chucks input C).flatten
      (input.take (C * (input.length / C))) :=
  split_chucks_spec hC input

theorem c9_chunks_full_and_tail_unwritten_witness :
    0 < 2 ∧
    ((∀ ch ∈ split_huge_file_into_sorted_chucks ["b", "a", "c"] 2, ch.length = 2) ∧
      (split_huge_file_into_sorted_chucks ["b", "a", "c"] 2).length =
        ["b", "a", "c"].length / 2 ∧
      List.Perm (split_huge_file_into_sorted_chucks ["b", "a", "c"] 2).flatten
        (["b", "a", "c"].take (2 * (["b", "a", "c"].length / 2)))) :=
  ⟨by decide, c9_chunks_full_and_tail_unwritten ["b", "a", "c"] 2 (by decide)⟩

/-- Claim C10: with batch size `0`, `islice` immediately returns the empty
list, which is the stop sentinel of `iter(wrapper, [])`: `chunked` yields no
batches, terminates at once and consumes nothing from the underlying
iterator. -/
theorem c10_chunk_size_zero_yields_nothing (l : List String) :
    chunked l 0 = [] ∧ chunkedStep l 0 = (none, l) :=
  ⟨chunked_zero l, chunkedStep_zero l⟩

end PhoneNumbers
